import Mathlib

/-!
Verification of the word-selection subsystem of the defindle word game.

Shallow embedding of src/server/wordService.ts and
src/server/enhancedWordService.ts.  JavaScript strings are modeled as Lean
strings restricted to ASCII (the corpora and all test data are ASCII); the
JS Set of strings is modeled as a List String with set-style operations;
Math.random picks are modeled by an explicit index parameter r, the chosen
element being the one at position r modulo the pool size; Date.now() ids
are modeled as the constant 0 (no claim depends on them).
-/

/-- The Word record returned to the game (the inline Word type declared at
the top of both service files). -/
structure Word where
  id : Nat
  word : String
  definition : String
  difficulty : String
  category : String
deriving Repr, DecidableEq

/-- Membership in the JS regex whitespace class, restricted to its ASCII
members. -/
def isWs (c : Char) : Bool :=
  c == ' ' || c == '\t' || c == '\n' || c == '\r' || c == '\x0B' || c == '\x0C'

/-- ASCII model of the JavaScript toUpperCase operation on one character. -/
def upChar (c : Char) : Char :=
  if c == 'a' then 'A' else if c == 'b' then 'B' else if c == 'c' then 'C'
  else if c == 'd' then 'D' else if c == 'e' then 'E' else if c == 'f' then 'F'
  else if c == 'g' then 'G' else if c == 'h' then 'H' else if c == 'i' then 'I'
  else if c == 'j' then 'J' else if c == 'k' then 'K' else if c == 'l' then 'L'
  else if c == 'm' then 'M' else if c == 'n' then 'N' else if c == 'o' then 'O'
  else if c == 'p' then 'P' else if c == 'q' then 'Q' else if c == 'r' then 'R'
  else if c == 's' then 'S' else if c == 't' then 'T' else if c == 'u' then 'U'
  else if c == 'v' then 'V' else if c == 'w' then 'W' else if c == 'x' then 'X'
  else if c == 'y' then 'Y' else if c == 'z' then 'Z' else c

/-- ASCII model of the JavaScript toUpperCase operation on a string. -/
def upStr (s : String) : String := String.mk (s.data.map upChar)

/-- One pass of the global regex replace of an open paren, a run of
non-close-paren characters and a close paren with the empty string
(the first replace in cleanDefinition).  Characters are scanned left to
right; an open paren starts a buffered group that is dropped when a close
paren arrives and is emitted verbatim when the input ends with the group
unclosed, since the regex cannot match there (no close paren follows).
The buffer is kept reversed. -/
def spAux : List Char → Option (List Char) → List Char
  | [], none => []
  | [], some buf => buf.reverse
  | c :: rest, none =>
    if c == '(' then spAux rest (some [c]) else c :: spAux rest none
  | c :: rest, some buf =>
    if c == ')' then spAux rest none else spAux rest (some (c :: buf))

/-- The parenthetical-aside removal stage of cleanDefinition. -/
def stripParens (l : List Char) : List Char := spAux l none

/-- The global replace of a whitespace run with a single space (second
replace in cleanDefinition).  The flag records whether the scanner is
inside a whitespace run whose single space has already been emitted. -/
def cwAux : List Char → Bool → List Char
  | [], _ => []
  | c :: rest, flag =>
    if isWs c then
      if flag then cwAux rest true else ' ' :: cwAux rest true
    else c :: cwAux rest false

/-- The whitespace-collapsing stage of cleanDefinition. -/
def collapseWs (l : List Char) : List Char := cwAux l false

/-- The capitalization stage of cleanDefinition: the first character is
replaced by its uppercased image.  (At the point this stage runs every
whitespace character is already a plain space, so the regex dot always
matches the first character of a non-empty string.) -/
def upperFirst : List Char → List Char
  | [] => []
  | c :: rest => upChar c :: rest

/-- The trailing-period stage of cleanDefinition: replacing an optional
final period at the end of the string with a period leaves a string that
already ends in a period unchanged and appends a period otherwise. -/
def ensurePeriod (l : List Char) : List Char :=
  if l.getLast? = some '.' then l else l ++ ['.']

/-- JS String.prototype.trim over the ASCII whitespace set. -/
def trimStr (l : List Char) : List Char :=
  ((l.dropWhile isWs).reverse.dropWhile isWs).reverse

/-- WordService.cleanDefinition (src/server/wordService.ts, lines 193-204):
strip parenthesized groups, collapse whitespace runs to single spaces,
uppercase the first character, force a trailing period, then trim. -/
def cleanDef (l : List Char) : List Char :=
  trimStr (ensurePeriod (upperFirst (collapseWs (stripParens l))))

/-- cleanDefinition on Lean strings. -/
def cleanDefinition (s : String) : String := String.mk (cleanDef s.data)

/-- Some open paren is followed, anywhere later in the list, by a close
paren; exactly then does the paren-stripping regex still have a match. -/
def hasOpenThenClose : List Char → Bool
  | [] => false
  | c :: rest => (c == '(' && rest.contains ')') || hasOpenThenClose rest

/-- Collapsed-whitespace normal form: every whitespace character is a plain
space and no two adjacent characters are both whitespace (no whitespace
runs of length two or more). -/
def wsNormal (l : List Char) : Prop :=
  (∀ c ∈ l, isWs c = true → c = ' ') ∧
  l.Chain' (fun a b => ¬(isWs a = true ∧ isWs b = true))

/-! ## Word corpus of src/server/wordService.ts -/

/-- The fixed list of common English words used by the difficulty
heuristic (categorizeWordDifficulty, lines 13-24; the duplicate HER is in
the source). -/
def COMMON_WORDS : List String :=
  ["THE", "AND", "FOR", "ARE", "BUT", "NOT", "YOU", "ALL", "CAN", "HER",
   "WAS", "ONE", "OUR", "HAD", "BY", "WORD", "WHAT", "SAID", "EACH", "WHICH",
   "DO", "HOW", "THEIR", "IF", "WILL", "UP", "OTHER", "ABOUT", "OUT", "MANY",
   "THEN", "THEM", "THESE", "SO", "SOME", "HER", "WOULD", "MAKE", "LIKE", "INTO",
   "HIM", "HAS", "TWO", "MORE", "GO", "NO", "WAY", "COULD", "MY", "THAN",
   "FIRST", "BEEN", "CALL", "WHO", "OIL", "ITS", "NOW", "FIND", "LONG", "DOWN",
   "DAY", "DID", "GET", "COME", "MADE", "MAY", "PART"]

/-- The word-length and common-word difficulty heuristic
(src/server/wordService.ts, lines 13-24). -/
def categorizeWordDifficulty (word : String) : String :=
  if COMMON_WORDS.contains (upStr word) || word.length ≤ 5 then "easy"
  else if word.length ≤ 8 then "medium"
  else "hard"

/-- The curated static word list (CURATED_WORDS, lines 27-120; duplicates
are in the source). -/
def CURATED_WORDS : List String :=
  ["HOUSE", "WATER", "LIGHT", "WORLD", "MUSIC", "PLANT", "SMILE", "DREAM", "PEACE", "TRUTH",
   "FAMILY", "FRIEND", "HAPPY", "LOVE", "TIME", "LIFE", "WORK", "SCHOOL", "BOOK", "STORY",
   "NATURE", "GARDEN", "FLOWER", "TREE", "CLOUD", "RAIN", "WIND", "FIRE", "EARTH", "SKY",
   "ADVENTURE", "BEAUTIFUL", "CREATIVE", "EDUCATION", "FANTASTIC", "GENEROUS", "HAPPINESS",
   "IMPORTANT", "KNOWLEDGE", "WONDERFUL", "MOUNTAIN", "SUNSHINE", "FRIENDSHIP", "BUTTERFLY",
   "JOURNEY", "EXPLORE", "DISCOVER", "FREEDOM", "COURAGE", "WISDOM", "MEMORY", "PASSION",
   "BALANCE", "HARMONY", "COMFORT", "ENERGY", "GROWTH", "HEALTH", "SPIRIT", "GENTLE",
   "MAGNIFICENT", "SPECTACULAR", "EXTRAORDINARY", "FASCINATING", "INCREDIBLE", "BRILLIANT",
   "OUTSTANDING", "REMARKABLE", "PHENOMENAL", "EXCEPTIONAL", "MYSTERIOUS", "ENCHANTING",
   "SOPHISTICATED", "ELABORATE", "INTRICATE", "COMPLEX", "PROFOUND", "SIGNIFICANT", "ULTIMATE",
   "ESSENTIAL", "FUNDAMENTAL", "COMPREHENSIVE", "EXTENSIVE", "INTENSIVE", "PROGRESSIVE",
   "SERENDIPITY", "EPHEMERAL", "WANDERLUST", "NOSTALGIA", "TRANQUIL", "LUMINOUS", "RESILIENCE",
   "QUINTESSENTIAL", "MELANCHOLY", "SYMPHONY", "SKYSCRAPER", "ELOQUENT", "INDIGENOUS", "UBIQUITOUS",
   "MAGNIFICENT", "CONTEMPLATION", "PERSEVERANCE", "EUPHEMISM", "PARADOX", "CATALYST", "PARADIGM",
   "PINNACLE", "TRAJECTORY", "MOMENTUM", "CATALYST", "BENCHMARK", "EQUILIBRIUM", "TRANSCENDENT",
   "CACOPHONY", "EUPHORIA", "LABYRINTH", "METAMORPHOSIS", "RENAISSANCE", "SOLITUDE", "ZENITH",
   "AMBIGUOUS", "BENEVOLENT", "CONSCIENTIOUS", "DILIGENT", "ECCENTRIC", "FLAMBOYANT", "GREGARIOUS",
   "KALEIDOSCOPE", "MIRAGE", "OASIS", "PRISM", "RIPPLE", "SHIMMER", "TWILIGHT", "VELVET",
   "WHISPER", "ZEPHYR", "BLOSSOM", "CASCADE", "DAZZLE", "EMBRACE", "FLUTTER", "GLIMMER",
   "PHOTOSYNTHESIS", "ECOSYSTEM", "BIODIVERSITY", "CONSTELLATION", "PRECIPITATION", "EVAPORATION",
   "CRYSTALLINE", "AURORA", "GRAVITATIONAL", "MOLECULAR", "ELECTROMAGNETIC", "REVOLUTIONARY",
   "ATMOSPHERIC", "GEOLOGICAL", "ASTRONOMICAL", "MICROSCOPIC", "MACROSCOPIC", "QUANTUM",
   "CHEMISTRY", "BIOLOGY", "PHYSICS", "MATHEMATICS", "GEOMETRY", "ALGEBRA", "CALCULUS",
   "NUCLEUS", "ELECTRON", "PROTON", "NEUTRON", "MOLECULE", "ATOM", "ELEMENT", "COMPOUND",
   "PHILOSOPHY", "PSYCHOLOGY", "ANTHROPOLOGY", "ARCHAEOLOGY", "ARCHITECTURE", "DEMOCRACY",
   "CAPITALISM", "SOCIALISM", "NATIONALISM", "GLOBALIZATION", "TECHNOLOGICAL", "INNOVATION",
   "LITERATURE", "LINGUISTICS", "SOCIOLOGY", "ECONOMICS", "POLITICS", "HISTORY", "GEOGRAPHY",
   "THEOLOGY", "METHODOLOGY", "EPISTEMOLOGY", "ONTOLOGY", "DIALECTIC", "SYNTHESIS", "ANALYSIS",
   "HYPOTHESIS", "THEORY", "CONCEPT", "PRINCIPLE", "DOCTRINE", "IDEOLOGY", "PARADIGM",
   "COMPASSIONATE", "EMPATHETIC", "OPTIMISTIC", "PESSIMISTIC", "CHARISMATIC", "INTROVERTED",
   "EXTROVERTED", "AMBITIOUS", "PERSISTENT", "SPONTANEOUS", "METHODICAL", "ANALYTICAL",
   "ENTHUSIASTIC", "PASSIONATE", "DETERMINED", "CONFIDENT", "HUMBLE", "GENEROUS", "PATIENT",
   "COURAGEOUS", "ADVENTUROUS", "CURIOUS", "CREATIVE", "INNOVATIVE", "INSPIRING", "MOTIVATING",
   "MASTERPIECE", "VIRTUOSO", "RENAISSANCE", "BAROQUE", "IMPRESSIONISM", "SURREALISM",
   "CONTEMPORARY", "AVANT-GARDE", "CLASSICAL", "ROMANTIC", "MINIMALIST", "EXPRESSIONISM",
   "SCULPTURE", "PAINTING", "LITERATURE", "POETRY", "MUSIC", "DANCE", "THEATER", "CINEMA",
   "ARCHITECTURE", "DESIGN", "FASHION", "PHOTOGRAPHY", "ILLUSTRATION", "CALLIGRAPHY",
   "ALGORITHM", "ARTIFICIAL", "INTELLIGENCE", "COMPUTER", "DIGITAL", "INTERNET", "NETWORK",
   "SOFTWARE", "HARDWARE", "PROGRAMMING", "DATABASE", "SECURITY", "ENCRYPTION", "BLOCKCHAIN",
   "VIRTUAL", "AUGMENTED", "REALITY", "SIMULATION", "AUTOMATION", "ROBOTICS", "MACHINE",
   "INTERFACE", "PLATFORM", "SYSTEM", "FRAMEWORK", "PROTOCOL", "ARCHITECTURE", "INFRASTRUCTURE",
   "CUISINE", "GOURMET", "DELICIOUS", "FLAVOR", "AROMA", "TEXTURE", "INGREDIENT", "RECIPE",
   "CULINARY", "CHEF", "KITCHEN", "RESTAURANT", "BANQUET", "FEAST", "APPETIZER", "DESSERT",
   "BEVERAGE", "COCKTAIL", "VINTAGE", "EXOTIC", "SPICE", "HERB", "SEASONING", "MARINADE",
   "DESTINATION", "VOYAGE", "EXPEDITION", "PILGRIMAGE", "EXCURSION", "SAFARI", "CRUISE",
   "CONTINENT", "ISLAND", "PENINSULA", "VALLEY", "PLATEAU", "DESERT", "FOREST", "JUNGLE",
   "METROPOLIS", "VILLAGE", "SUBURB", "DISTRICT", "NEIGHBORHOOD", "LANDMARK", "MONUMENT",
   "HERITAGE", "CULTURE", "TRADITION", "CUSTOMS", "FESTIVAL", "CELEBRATION", "CEREMONY",
   "ENTREPRENEUR", "INNOVATION", "INVESTMENT", "REVENUE", "PROFIT", "MARKET", "ECONOMY",
   "STRATEGY", "MANAGEMENT", "LEADERSHIP", "ORGANIZATION", "CORPORATION", "ENTERPRISE",
   "PRODUCTIVITY", "EFFICIENCY", "QUALITY", "EXCELLENCE", "PERFORMANCE", "ACHIEVEMENT",
   "COMPETITION", "COLLABORATION", "PARTNERSHIP", "NETWORKING", "NEGOTIATION", "CONTRACT",
   "WELLNESS", "VITALITY", "NUTRITION", "EXERCISE", "MEDITATION", "MINDFULNESS", "BALANCE",
   "STRENGTH", "FLEXIBILITY", "ENDURANCE", "IMMUNITY", "HEALING", "THERAPY", "RECOVERY",
   "PREVENTION", "DIAGNOSIS", "TREATMENT", "MEDICINE", "PHARMACY", "HOSPITAL", "CLINIC",
   "CHRONOLOGY", "DURATION", "MOMENT", "INSTANT", "ETERNITY", "TEMPORAL", "SEASONAL",
   "SPRING", "SUMMER", "AUTUMN", "WINTER", "DAWN", "DUSK", "MIDNIGHT", "NOON",
   "CENTURY", "DECADE", "MILLENNIUM", "ANNIVERSARY", "BIRTHDAY", "HOLIDAY", "WEEKEND",
   "LANGUAGE", "VOCABULARY", "GRAMMAR", "SYNTAX", "SEMANTICS", "PRONUNCIATION", "ACCENT",
   "DIALECT", "CONVERSATION", "DIALOGUE", "MONOLOGUE", "SPEECH", "PRESENTATION", "LECTURE",
   "DISCUSSION", "DEBATE", "ARGUMENT", "PERSUASION", "RHETORIC", "ELOQUENCE", "ARTICULATION"]

/-- The topic-themed dynamic pools (DYNAMIC_WORD_POOLS, lines 123-132),
flattened in the object's insertion order, as Object.values(...).flat()
produces in getDynamicWord. -/
def allDynamicWords : List String :=
  ["ELEPHANT", "GIRAFFE", "PENGUIN", "DOLPHIN", "OCTOPUS", "KANGAROO", "CHAMELEON", "RHINOCEROS"] ++
  ["CRIMSON", "EMERALD", "SAPPHIRE", "AMBER", "VIOLET", "TURQUOISE", "MAGENTA", "BURGUNDY"] ++
  ["ARCHITECT", "ENGINEER", "SCIENTIST", "ARTIST", "MUSICIAN", "TEACHER", "DOCTOR", "LAWYER"] ++
  ["AUSTRALIA", "CANADA", "BRAZIL", "GERMANY", "JAPAN", "ITALY", "SPAIN", "FRANCE"] ++
  ["THUNDERSTORM", "HURRICANE", "BLIZZARD", "TORNADO", "RAINBOW", "LIGHTNING", "DRIZZLE", "HAIL"] ++
  ["BASKETBALL", "FOOTBALL", "TENNIS", "SWIMMING", "CYCLING", "MARATHON", "GYMNASTICS", "VOLLEYBALL"] ++
  ["PIANO", "GUITAR", "VIOLIN", "TRUMPET", "SAXOPHONE", "DRUMS", "FLUTE", "CELLO"] ++
  ["PHOENIX", "DRAGON", "UNICORN", "CENTAUR", "GRIFFIN", "PEGASUS", "HYDRA", "CHIMERA"]

/-- The hardcoded generic dictionary word list of getRandomDictionaryWord
(lines 265-271). -/
def RANDOM_DICTIONARY_WORDS : List String :=
  ["ANCIENT", "BRIDGE", "CASTLE", "DOLPHIN", "ELEPHANT", "FOREST", "GALAXY",
   "HARBOR", "ISLAND", "JUNGLE", "KITCHEN", "LIBRARY", "MEADOW", "NATURE",
   "OCEAN", "PALACE", "QUEEN", "RIVER", "SUNSET", "TEMPLE", "UMBRELLA",
   "VILLAGE", "WINDOW", "YELLOW", "ZEBRA", "MARBLE", "CRYSTAL", "THUNDER",
   "BUTTERFLY", "MOUNTAIN", "DIAMOND", "SILVER", "GOLDEN", "PURPLE", "ORANGE"]

/-- The fixed fallback word/definition pairs of getFallbackWord
(lines 285-298). -/
def FALLBACK_WORDS : List (String × String) :=
  [("MAGNIFICENT",
    "Extremely beautiful, elaborate, or impressive; inspiring great admiration or awe."),
   ("SERENDIPITY",
    "The occurrence and development of events by chance in a happy or beneficial way; a pleasant surprise."),
   ("WANDERLUST",
    "A strong desire to travel and explore the world; an irresistible urge to wander and discover new places.")]

/-! ## Definition lookup (src/server/wordService.ts, lines 134-191) -/

/-- One definition object of the dictionary API response shape. -/
structure APIDefinition where
  definition : String
deriving Repr, DecidableEq

/-- One meaning of the dictionary API response shape. -/
structure APIMeaning where
  partOfSpeech : String
  definitions : List APIDefinition
deriving Repr, DecidableEq

/-- One entry of the dictionary API response array. -/
structure DictEntry where
  word : String
  meanings : List APIMeaning
deriving Repr, DecidableEq

/-- The observable outcomes of the network fetch inside
fetchDefinitionFromAPI: a thrown network error (caught by the try block),
a non-success HTTP status (response.ok false), or a parsed JSON array. -/
inductive APIResponse where
  | networkError
  | httpError
  | ok (data : List DictEntry)
deriving Repr, DecidableEq

/-- The loop over meanings inside fetchDefinitionFromAPI (lines 172-183):
take the first definition of each meaning in turn and return its cleaned
form as soon as the cleaned length lies strictly between 20 and 200. -/
def findUsableDefinition : List APIMeaning → Option String
  | [] => none
  | m :: rest =>
    if m.definitions.isEmpty then findUsableDefinition rest
    else
      let c := cleanDefinition (m.definitions.headD ⟨""⟩).definition
      if 20 < c.length && c.length < 200 then some c
      else findUsableDefinition rest

/-- WordService.fetchDefinitionFromAPI (lines 158-191), as a function of
the observed network outcome: every failure shape maps to none. -/
def fetchDefinitionFromAPI : APIResponse → Option String
  | .networkError => none
  | .httpError => none
  | .ok data =>
    match data with
    | [] => none
    | entry :: _ =>
      if entry.meanings.isEmpty then none
      else findUsableDefinition entry.meanings

/-! ## Word selection (src/server/wordService.ts, lines 206-307) -/

/-- JS Set.add on the list model of a set of strings. -/
def setAdd (s : List String) (w : String) : List String :=
  if s.contains w then s else s ++ [w]

/-- The Math.random pick: the element at position r modulo the pool size
(the default is only returned for an empty pool, which every caller
guards against). -/
def pickAt {α : Type} (l : List α) (r : Nat) (d : α) : α :=
  l.getD (r % l.length) d

/-- WordService.getCuratedWord (lines 241-249). -/
def getCuratedWord (used : List String) (r : Nat) : Option String :=
  let availableWords := CURATED_WORDS.filter (fun w => !used.contains w)
  if availableWords.isEmpty then none
  else some (pickAt availableWords r "")

/-- WordService.getDynamicWord (lines 251-261). -/
def getDynamicWord (used : List String) (r : Nat) : Option String :=
  let availableDynamicWords := allDynamicWords.filter (fun w => !used.contains w)
  if availableDynamicWords.isEmpty then none
  else some (pickAt availableDynamicWords r "")

/-- WordService.getRandomDictionaryWord (lines 263-282): when its list is
exhausted it clears the used-words set (the cleared set is the second
component) and picks from the full list. -/
def getRandomDictionaryWord (used : List String) (r : Nat) :
    Option String × List String :=
  let availableRandomWords := RANDOM_DICTIONARY_WORDS.filter (fun w => !used.contains w)
  if availableRandomWords.isEmpty then
    (some (pickAt RANDOM_DICTIONARY_WORDS r ""), [])
  else
    (some (pickAt availableRandomWords r ""), used)

/-- WordService.getFallbackWord (lines 284-307). -/
def getFallbackWord (r : Nat) : Word :=
  let randomFallback := pickAt FALLBACK_WORDS r ("", "")
  ⟨0, randomFallback.1, randomFallback.2,
   categorizeWordDifficulty randomFallback.1, "general"⟩

/-- The candidate-selection chain at the top of
WordService.getRandomWordWithDefinition (lines 206-218): curated list,
then dynamic pools, then the hardcoded dictionary list.  The second
component is the used-words set after selection (only the dictionary step
can change it, by clearing). -/
def selectCandidate (used : List String) (r : Nat) :
    Option String × List String :=
  match getCuratedWord used r with
  | some w => (some w, used)
  | none =>
    match getDynamicWord used r with
    | some w => (some w, used)
    | none => getRandomDictionaryWord used r

/-- WordService.getRandomWordWithDefinition (lines 206-239), parametrized
by the definition-lookup outcome api for each word.  Every path returns a
Word, as in the source (the declared null is never produced). -/
def getRandomWordWithDefinitionWS (api : String → Option String)
    (used : List String) (r : Nat) : Word × List String :=
  match selectCandidate used r with
  | (some wordToTry, used₀) =>
    match api wordToTry with
    | some definition =>
      (⟨0, upStr wordToTry, definition,
        categorizeWordDifficulty wordToTry, "general"⟩,
       setAdd used₀ wordToTry)
    | none => (getFallbackWord r, used₀)
  | (none, used₀) => (getFallbackWord r, used₀)

/-! ## Enhanced word service (src/server/enhancedWordService.ts) -/

/-- One record of the loaded word database (the fields the service
reads; a missing category is modeled by the empty string, which is falsy
in the JS category fallback). -/
structure DBEntry where
  word : String
  definition : String
  difficulty : String
  category : String
deriving Repr, DecidableEq

/-- EnhancedWordService.mapDifficulty (lines 143-150). -/
def mapDifficulty (dbDifficulty : String) : String :=
  if dbDifficulty = "common" then "easy"
  else if dbDifficulty = "moderate" then "medium"
  else if dbDifficulty = "expert" then "hard"
  else "medium"

/-- The Word record built from a database entry (the object literal
repeated in the enhanced service methods). -/
def mkWord (e : DBEntry) : Word :=
  ⟨0, e.word, e.definition, mapDifficulty e.difficulty,
   if e.category = "" then "general" else e.category⟩

/-- The difficulty argument of getWordByDifficulty (the TS union type). -/
inductive Difficulty where
  | easy
  | medium
  | hard
  | mixed
deriving Repr, DecidableEq

/-- The WORDS_BY_DIFFICULTY pools (lines 44-48: per-difficulty filter of
the database capped at 200) together with the mixed case (full database). -/
def wordPool (db : List DBEntry) : Difficulty → List DBEntry
  | .easy => (db.filter (fun w => w.difficulty == "common")).take 200
  | .medium => (db.filter (fun w => w.difficulty == "moderate")).take 200
  | .hard => (db.filter (fun w => w.difficulty == "expert")).take 200
  | .mixed => db

/-- Default database entry for the guarded random pick. -/
def dfltEntry : DBEntry := ⟨"", "", "", ""⟩

/-- The reset step of getWordByDifficulty (line 124): delete every word of
the requested pool from the used-words set. -/
def tierReset (pool : List DBEntry) (used : List String) : List String :=
  pool.foldl (fun s w => s.filter (fun x => x != w.word)) used

/-- EnhancedWordService.getWordByDifficulty (lines 100-138).  The source
recurses unconditionally after the reset; the Nat argument is recursion
fuel, and none means the call has not produced a result within that many
nested calls (the source never returns null). -/
def getWordByDifficulty (db : List DBEntry) (d : Difficulty) (r : Nat) :
    Nat → List String → Option (Word × List String)
  | 0, _ => none
  | fuel + 1, used =>
    let pool := wordPool db d
    let availableWords := pool.filter (fun w => !used.contains w.word)
    if availableWords.isEmpty then
      getWordByDifficulty db d r fuel (tierReset pool used)
    else
      let randomWord := pickAt availableWords r dfltEntry
      some (mkWord randomWord, setAdd used randomWord.word)

/-- EnhancedWordService.getRandomWordWithDefinition (lines 77-95), with
recursion fuel as above: the reset clears the whole used-words set and the
source recurses unconditionally (it never returns null). -/
def getRandomWordWithDefinitionE (db : List DBEntry) (r : Nat) :
    Nat → List String → Option (Word × List String)
  | 0, _ => none
  | fuel + 1, used =>
    let availableWords := db.filter (fun w => !used.contains w.word)
    if availableWords.isEmpty then
      getRandomWordWithDefinitionE db r fuel []
    else
      let randomWord := pickAt availableWords r dfltEntry
      some (mkWord randomWord, setAdd used randomWord.word)

/-- The pool switch of getSmartWordSelection (lines 204-217): the
difficulty is a free-form string, every unknown value falling back to the
full database. -/
def smartPool (db : List DBEntry) (difficulty : String) : List DBEntry :=
  if difficulty = "easy" then wordPool db .easy
  else if difficulty = "medium" then wordPool db .medium
  else if difficulty = "hard" then wordPool db .hard
  else db

/-- EnhancedWordService.getSmartWordSelection (lines 201-260).  The first
component is the returned word (null modeled as none), the second the
used-words set after the call; seenWords is the caller-supplied personal
history, which the function never modifies. -/
def getSmartWordSelection (db : List DBEntry) (seenWords : List String)
    (difficulty : String) (used : List String) (r : Nat) :
    Option Word × List String :=
  let pool := smartPool db difficulty
  let unseenWords := pool.filter (fun w =>
    !seenWords.contains (upStr w.word) && !used.contains w.word)
  if unseenWords.isEmpty then
    let cleared : List String := []
    let availableWords := pool.filter (fun w => !cleared.contains w.word)
    if availableWords.isEmpty then (none, cleared)
    else
      let randomWord := pickAt availableWords r dfltEntry
      (some (mkWord randomWord), setAdd cleared randomWord.word)
  else
    let randomWord := pickAt unseenWords r dfltEntry
    (some (mkWord randomWord), setAdd used randomWord.word)

/-! ## Concrete data used in witnesses and counterexamples -/

/-- A two-entry database with one common-tier and one expert-tier word. -/
def demoDbC1 : List DBEntry :=
  [⟨"ALPHA", "First letter.", "common", "general"⟩,
   ⟨"BRAVO", "Second letter.", "expert", "general"⟩]

/-- A one-entry database. -/
def demoDb : List DBEntry :=
  [⟨"HOUSE", "A building for human habitation.", "common", "general"⟩]

/-- A used-words set holding every word of all three heuristic-path
candidate lists. -/
def exhaustedUsed : List String :=
  CURATED_WORDS ++ allDynamicWords ++ RANDOM_DICTIONARY_WORDS

/-- A definition lookup that fails for every word. -/
def apiNone : String → Option String := fun _ => none

/-- A definition lookup that fails exactly for the word HOUSE and
succeeds for every other word. -/
def apiFailHouse : String → Option String := fun w =>
  if w = "HOUSE" then none else some "A reasonable well formed definition."

/-! ## Facts about the character-level model -/

theorem upChar_cases (c : Char) :
    upChar c = c ∨ upChar c ∈
      ['A', 'B', 'C', 'D', 'E', 'F', 'G', 'H', 'I', 'J', 'K', 'L', 'M',
       'N', 'O', 'P', 'Q', 'R', 'S', 'T', 'U', 'V', 'W', 'X', 'Y', 'Z'] := by
  by_cases h : c ∈
      ['a', 'b', 'c', 'd', 'e', 'f', 'g', 'h', 'i', 'j', 'k', 'l', 'm',
       'n', 'o', 'p', 'q', 'r', 's', 't', 'u', 'v', 'w', 'x', 'y', 'z']
  · right
    fin_cases h <;> decide
  · left
    simp only [List.mem_cons, List.not_mem_nil, or_false, not_or] at h
    obtain ⟨h1, h2, h3, h4, h5, h6, h7, h8, h9, h10, h11, h12, h13, h14,
      h15, h16, h17, h18, h19, h20, h21, h22, h23, h24, h25, h26⟩ := h
    simp [upChar, h1, h2, h3, h4, h5, h6, h7, h8, h9, h10, h11, h12, h13,
      h14, h15, h16, h17, h18, h19, h20, h21, h22, h23, h24, h25, h26]

theorem upChar_idem (c : Char) : upChar (upChar c) = upChar c := by
  rcases upChar_cases c with h | h
  · rw [h]
    exact h
  · have hall : ∀ x ∈
        ['A', 'B', 'C', 'D', 'E', 'F', 'G', 'H', 'I', 'J', 'K', 'L', 'M',
         'N', 'O', 'P', 'Q', 'R', 'S', 'T', 'U', 'V', 'W', 'X', 'Y', 'Z'],
        upChar x = x := by decide
    rw [hall _ h]

theorem upChar_eq_of_eq_lparen (c : Char) (h : upChar c = '(') : c = '(' := by
  rcases upChar_cases c with h' | h'
  · rw [← h', h]
  · rw [h] at h'
    exact absurd h' (by decide)

theorem upChar_fix_of_isWs (c : Char) (h : isWs (upChar c) = true) :
    upChar c = c := by
  rcases upChar_cases c with h' | h'
  · exact h'
  · have hall : ∀ x ∈
        ['A', 'B', 'C', 'D', 'E', 'F', 'G', 'H', 'I', 'J', 'K', 'L', 'M',
         'N', 'O', 'P', 'Q', 'R', 'S', 'T', 'U', 'V', 'W', 'X', 'Y', 'Z'],
        isWs x = false := by decide
    rw [hall _ h'] at h
    cases h

theorem upStr_idem (s : String) : upStr (upStr s) = upStr s := by
  unfold upStr
  simp only [List.map_map]
  congr 1
  exact List.map_congr_left (fun a _ => upChar_idem a)

/-! ## Properties of the paren-stripping stage -/

theorem hOTC_of_not_close (l : List Char) (h : ')' ∉ l) :
    hasOpenThenClose l = false := by
  induction l with
  | nil => rfl
  | cons c rest ih =>
    simp only [List.mem_cons, not_or] at h
    have hrest : rest.contains ')' = false := by
      simp only [List.contains_eq_any_beq, List.any_eq_false, beq_iff_eq]
      intro x hx he
      exact h.2 (he ▸ hx)
    simp only [hasOpenThenClose, hrest, Bool.and_false, Bool.false_or]
    exact ih h.2

theorem spAux_no_close (l : List Char) (h : ')' ∉ l) :
    ∀ buf, spAux l (some buf) = buf.reverse ++ l := by
  induction l with
  | nil => intro buf; simp [spAux]
  | cons c rest ih =>
    intro buf
    simp only [List.mem_cons, not_or] at h
    have hc : (c == ')') = false := by
      simp only [beq_eq_false_iff_ne, ne_eq]
      exact fun e => h.1 e.symm
    simp only [spAux, hc, Bool.false_eq_true, if_false, ih h.2,
      List.reverse_cons, List.append_assoc, List.singleton_append]

theorem spAux_hOTC (l : List Char) :
    ∀ ob : Option (List Char), (∀ buf, ob = some buf → ')' ∉ buf) →
    hasOpenThenClose (spAux l ob) = false := by
  induction l with
  | nil =>
    intro ob hob
    match ob with
    | none => rfl
    | some buf =>
      have : ')' ∉ buf.reverse := by
        simp only [List.mem_reverse]
        exact hob buf rfl
      exact hOTC_of_not_close _ this
  | cons c rest ih =>
    intro ob hob
    match ob with
    | none =>
      by_cases hc : (c == '(') = true
      · simp only [spAux, hc, if_true]
        have hce : c = '(' := by simpa [beq_iff_eq] using hc
        refine ih (some [c]) ?_
        intro buf hb
        cases hb
        rw [hce]
        decide
      · simp only [spAux, hc, if_false]
        have hc' : (c == '(') = false := by
          cases h : (c == '(') with
          | true => exact absurd h hc
          | false => rfl
        simp only [hasOpenThenClose, hc', Bool.false_and, Bool.false_or]
        exact ih none (by intro buf hb; cases hb)
    | some buf =>
      have hbuf : ')' ∉ buf := hob buf rfl
      by_cases hc : (c == ')') = true
      · simp only [spAux, hc, if_true]
        exact ih none (by intro b hb; cases hb)
      · simp only [spAux, hc, if_false]
        refine ih (some (c :: buf)) ?_
        intro b hb
        cases hb
        simp only [List.mem_cons, not_or]
        refine ⟨?_, hbuf⟩
        intro he
        exact hc (by rw [← he]; decide)

theorem stripParens_hOTC (l : List Char) :
    hasOpenThenClose (stripParens l) = false :=
  spAux_hOTC l none (by intro buf hb; cases hb)

theorem stripParens_fix (l : List Char) (h : hasOpenThenClose l = false) :
    stripParens l = l := by
  induction l with
  | nil => rfl
  | cons c rest ih =>
    simp only [hasOpenThenClose, Bool.or_eq_false_iff,
      Bool.and_eq_false_iff] at h
    by_cases hc : (c == '(') = true
    · have hrest : rest.contains ')' = false := by
        rcases h.1 with h' | h'
        · exact absurd hc (by rw [h']; intro hh; cases hh)
        · exact h'
      have hnot : ')' ∉ rest := by
        intro hm
        rw [List.contains_eq_any_beq] at hrest
        simp only [List.any_eq_false, beq_iff_eq] at hrest
        exact hrest ')' hm rfl
      have hce : c = '(' := by
        have := hc
        simp only [beq_iff_eq] at this
        exact this
      simp only [stripParens, spAux, hc, if_true]
      rw [spAux_no_close rest hnot [c]]
      simp
    · simp only [stripParens, spAux, hc, if_false]
      exact congrArg (c :: ·) (ih h.2)

/-! ## Properties of the whitespace-collapsing stage -/

theorem cwAux_mem (l : List Char) :
    ∀ b a, a ∈ cwAux l b → a = ' ' ∨ a ∈ l := by
  induction l with
  | nil => intro b a h; cases h
  | cons c rest ih =>
    intro b a h
    by_cases hw : isWs c = true
    · cases b with
      | true =>
        simp only [cwAux, hw, if_true] at h
        rcases ih true a h with h' | h'
        · exact Or.inl h'
        · exact Or.inr (List.mem_cons_of_mem _ h')
      | false =>
        simp only [cwAux, hw, if_true] at h
        rcases List.mem_cons.mp h with h' | h'
        · exact Or.inl h'
        · rcases ih true a h' with h'' | h''
          · exact Or.inl h''
          · exact Or.inr (List.mem_cons_of_mem _ h'')
    · have hw' : isWs c = false := by
        cases hh : isWs c with
        | true => exact absurd hh hw
        | false => rfl
      simp only [cwAux, hw', Bool.false_eq_true, if_false] at h
      rcases List.mem_cons.mp h with h' | h'
      · exact Or.inr (h' ▸ List.mem_cons_self _ _)
      · rcases ih false a h' with h'' | h''
        · exact Or.inl h''
        · exact Or.inr (List.mem_cons_of_mem _ h'')

theorem cwAux_hOTC (l : List Char) (h : hasOpenThenClose l = false) :
    ∀ b, hasOpenThenClose (cwAux l b) = false := by
  induction l with
  | nil => intro b; rfl
  | cons c rest ih =>
    intro b
    simp only [hasOpenThenClose, Bool.or_eq_false_iff,
      Bool.and_eq_false_iff] at h
    by_cases hw : isWs c = true
    · cases b with
      | true =>
        simp only [cwAux, hw, if_true]
        exact ih h.2 true
      | false =>
        simp only [cwAux, hw, if_true]
        simp only [hasOpenThenClose]
        have : ((' ' == '(') = false) := by decide
        simp only [this, Bool.false_and, Bool.false_or]
        exact ih h.2 true
    · have hw' : isWs c = false := by
        cases hh : isWs c with
        | true => exact absurd hh hw
        | false => rfl
      simp only [cwAux, hw', Bool.false_eq_true, if_false]
      simp only [hasOpenThenClose, Bool.or_eq_false_iff,
        Bool.and_eq_false_iff]
      constructor
      · rcases h.1 with h' | h'
        · exact Or.inl h'
        · right
          simp only [List.contains_eq_any_beq, List.any_eq_false,
            beq_iff_eq] at h' ⊢
          intro x hx he
          rcases cwAux_mem rest false x hx with h'' | h''
          · rw [h''] at he
            exact absurd he (by decide)
          · exact h' x h'' he
      · exact ih h.2 false

theorem cwAux_head_nonWs (l : List Char) :
    ∀ a, (cwAux l true).head? = some a → isWs a = false := by
  induction l with
  | nil => intro a h; cases h
  | cons c rest ih =>
    intro a h
    by_cases hw : isWs c = true
    · simp only [cwAux, hw, if_true] at h
      exact ih a h
    · have hw' : isWs c = false := by
        cases hh : isWs c with
        | true => exact absurd hh hw
        | false => rfl
      simp only [cwAux, hw', Bool.false_eq_true, if_false,
        List.head?_cons, Option.some.injEq] at h
      rw [← h]
      exact hw'

theorem wsNormal_cons (c : Char) (l : List Char) (h : wsNormal (c :: l)) :
    wsNormal l :=
  ⟨fun a ha hw => h.1 a (List.mem_cons_of_mem _ ha) hw, h.2.tail⟩

theorem cwAux_wsNormal (l : List Char) : ∀ b, wsNormal (cwAux l b) := by
  induction l with
  | nil =>
    intro b
    exact ⟨fun a ha => absurd ha (List.not_mem_nil a), List.chain'_nil⟩
  | cons c rest ih =>
    intro b
    by_cases hw : isWs c = true
    · cases b with
      | true =>
        simp only [cwAux, hw, if_true]
        exact ih true
      | false =>
        simp only [cwAux, hw, if_true]
        constructor
        · intro a ha hwa
          rcases List.mem_cons.mp ha with h' | h'
          · exact h'
          · exact (ih true).1 a h' hwa
        · refine List.chain'_cons'.mpr ⟨?_, (ih true).2⟩
          intro y hy
          have hy' : (cwAux rest true).head? = some y := hy
          have := cwAux_head_nonWs rest y hy'
          intro hpair
          rw [this] at hpair
          exact Bool.false_ne_true hpair.2
    · have hw' : isWs c = false := by
        cases hh : isWs c with
        | true => exact absurd hh hw
        | false => rfl
      simp only [cwAux, hw', Bool.false_eq_true, if_false]
      constructor
      · intro a ha hwa
        rcases List.mem_cons.mp ha with h' | h'
        · rw [h'] at hwa
          rw [hwa] at hw'
          cases hw'
        · exact (ih false).1 a h' hwa
      · refine List.chain'_cons'.mpr ⟨?_, (ih false).2⟩
        intro y _ hpair
        rw [hw'] at hpair
        exact Bool.false_ne_true hpair.1

theorem cwAux_fix (l : List Char) :
    ∀ b, wsNormal l → (b = true → ∀ a, l.head? = some a → isWs a = false) →
    cwAux l b = l := by
  induction l with
  | nil => intro b _ _; rfl
  | cons c rest ih =>
    intro b hn hh
    by_cases hw : isWs c = true
    · have hb : b = false := by
        cases b with
        | false => rfl
        | true =>
          have := hh rfl c rfl
          rw [this] at hw
          cases hw
      subst hb
      have hsp : c = ' ' := hn.1 c (List.mem_cons_self _ _) hw
      simp only [cwAux, hw, if_true]
      have hhead : ∀ a, rest.head? = some a → isWs a = false := by
        intro a ha
        have hp := (List.chain'_cons'.mp hn.2).1 a ha
        cases hq : isWs a with
        | false => rfl
        | true => exact absurd ⟨hw, hq⟩ hp
      rw [ih true (wsNormal_cons _ _ hn) (fun _ => hhead), hsp]
      simp
    · have hw' : isWs c = false := by
        cases hh' : isWs c with
        | true => exact absurd hh' hw
        | false => rfl
      simp only [cwAux, hw', Bool.false_eq_true, if_false]
      exact congrArg (c :: ·)
        (ih false (wsNormal_cons _ _ hn) (by intro h; cases h))

/-! ## Properties of the capitalization stage -/

theorem upperFirst_hOTC (l : List Char) (h : hasOpenThenClose l = false) :
    hasOpenThenClose (upperFirst l) = false := by
  cases l with
  | nil => rfl
  | cons c rest =>
    simp only [hasOpenThenClose, Bool.or_eq_false_iff,
      Bool.and_eq_false_iff] at h ⊢
    refine ⟨?_, h.2⟩
    rcases h.1 with h' | h'
    · by_cases hu : (upChar c == '(') = true
      · have : c = '(' :=
          upChar_eq_of_eq_lparen c (by simpa [beq_iff_eq] using hu)
        rw [this] at h'
        exact absurd h' (by decide)
      · left
        cases hh : (upChar c == '(') with
        | true => exact absurd hh hu
        | false => rfl
    · exact Or.inr h'

theorem upperFirst_wsNormal (l : List Char) (h : wsNormal l) :
    wsNormal (upperFirst l) := by
  cases l with
  | nil => exact h
  | cons c rest =>
    constructor
    · intro a ha hwa
      rcases List.mem_cons.mp ha with h' | h'
      · have hfix : upChar c = c := upChar_fix_of_isWs c (h' ▸ hwa)
        have hc : isWs c = true := by rw [← hfix, ← h']; exact hwa
        rw [h', hfix]
        exact h.1 c (List.mem_cons_self _ _) hc
      · exact h.1 a (List.mem_cons_of_mem _ h') hwa
    · refine List.chain'_cons'.mpr ⟨?_, (List.chain'_cons'.mp h.2).2⟩
      intro y hy hpair
      have hfix : upChar c = c := upChar_fix_of_isWs c hpair.1
      have hc : isWs c = true := by rw [← hfix]; exact hpair.1
      exact (List.chain'_cons'.mp h.2).1 y hy ⟨hc, hpair.2⟩

theorem upperFirst_getLast (l : List Char) (h : l.getLast? = some '.') :
    (upperFirst l).getLast? = some '.' := by
  match l with
  | [] => cases h
  | [c] =>
    simp only [List.getLast?_singleton, Option.some.injEq] at h
    rw [h]
    rfl
  | c :: d :: rest =>
    simp only [upperFirst, List.getLast?_cons_cons] at h ⊢
    exact h

theorem upperFirst_head_nonWs (l : List Char)
    (h : ∀ a, l.head? = some a → isWs a = false) :
    ∀ a, (upperFirst l).head? = some a → isWs a = false := by
  cases l with
  | nil => intro a ha; cases ha
  | cons c rest =>
    intro a ha
    simp only [upperFirst, List.head?_cons, Option.some.injEq] at ha
    cases hh : isWs a with
    | false => rfl
    | true =>
      have hfix : upChar c = c := upChar_fix_of_isWs c (by rw [ha]; exact hh)
      rw [← ha, hfix] at hh
      rw [h c rfl] at hh
      cases hh

/-! ## Properties of the trailing-period stage -/

theorem ensurePeriod_getLast (l : List Char) :
    (ensurePeriod l).getLast? = some '.' := by
  unfold ensurePeriod
  split
  · assumption
  · exact List.getLast?_concat l

theorem hOTC_concat_dot (l : List Char) (h : hasOpenThenClose l = false) :
    hasOpenThenClose (l ++ ['.']) = false := by
  induction l with
  | nil => rfl
  | cons c rest ih =>
    simp only [hasOpenThenClose, Bool.or_eq_false_iff,
      Bool.and_eq_false_iff, List.cons_append] at h ⊢
    refine ⟨?_, ih h.2⟩
    rcases h.1 with h' | h'
    · exact Or.inl h'
    · right
      simp only [List.contains_eq_any_beq, List.any_eq_false,
        beq_iff_eq] at h' ⊢
      intro x hx he
      rcases List.mem_append.mp hx with h'' | h''
      · exact h' x h'' he
      · rw [List.mem_singleton.mp h''] at he
        exact absurd he (by decide)

theorem ensurePeriod_hOTC (l : List Char) (h : hasOpenThenClose l = false) :
    hasOpenThenClose (ensurePeriod l) = false := by
  unfold ensurePeriod
  split
  · exact h
  · exact hOTC_concat_dot l h

theorem ensurePeriod_wsNormal (l : List Char) (h : wsNormal l) :
    wsNormal (ensurePeriod l) := by
  unfold ensurePeriod
  split
  · exact h
  · constructor
    · intro a ha hwa
      rcases List.mem_append.mp ha with h' | h'
      · exact h.1 a h' hwa
      · rw [List.mem_singleton.mp h'] at hwa
        cases hwa
    · refine List.chain'_append.mpr ⟨h.2, List.chain'_singleton _, ?_⟩
      intro x _ y hy hpair
      simp only [List.head?_cons, Option.mem_def, Option.some.injEq] at hy
      rw [← hy] at hpair
      exact absurd hpair.2 (by decide)

theorem ensurePeriod_fix (l : List Char) (h : l.getLast? = some '.') :
    ensurePeriod l = l := by
  unfold ensurePeriod
  exact if_pos h

/-! ## Properties of the trim stage -/

theorem head_dropWhile_nonSat (p : Char → Bool) (l : List Char) :
    ∀ a, (l.dropWhile p).head? = some a → p a = false := by
  intro a ha
  have h := List.head?_dropWhile_not p l
  rw [ha] at h
  exact h

theorem dropWhile_eq_self_of_head (p : Char → Bool) (l : List Char)
    (h : ∀ a, l.head? = some a → p a = false) : l.dropWhile p = l := by
  cases l with
  | nil => rfl
  | cons c rest =>
    have := h c rfl
    simp [List.dropWhile_cons, this]

theorem getLast_dropWhile_of_last (p : Char → Bool) (l : List Char)
    (c : Char) (hl : l.getLast? = some c) (hp : p c = false) :
    (l.dropWhile p).getLast? = some c := by
  induction l with
  | nil => cases hl
  | cons a rest ih =>
    by_cases ha : p a = true
    · cases rest with
      | nil =>
        simp only [List.getLast?_singleton, Option.some.injEq] at hl
        rw [hl] at ha
        rw [hp] at ha
        cases ha
      | cons d tl =>
        rw [List.getLast?_cons_cons] at hl
        rw [List.dropWhile_cons_of_pos ha]
        exact ih hl
    · have ha' : ¬ p a := by
        intro hh
        exact ha hh
      simp only [List.dropWhile_cons_of_neg ha']
      exact hl

theorem trimStr_getLast (l : List Char) (h : l.getLast? = some '.') :
    (trimStr l).getLast? = some '.' := by
  unfold trimStr
  have h1 : (l.dropWhile isWs).getLast? = some '.' :=
    getLast_dropWhile_of_last isWs l '.' h (by decide)
  have h2 : (l.dropWhile isWs).reverse.head? = some '.' := by
    rw [List.head?_reverse]
    exact h1
  have h3 : (l.dropWhile isWs).reverse.dropWhile isWs =
      (l.dropWhile isWs).reverse := by
    refine dropWhile_eq_self_of_head isWs _ ?_
    intro a ha
    rw [h2] at ha
    cases ha
    decide
  rw [h3, List.reverse_reverse]
  exact h1

theorem getLast_dropWhile_of_ne_nil (p : Char → Bool) (l : List Char)
    (h : l.dropWhile p ≠ []) : (l.dropWhile p).getLast? = l.getLast? := by
  induction l with
  | nil => exact absurd rfl h
  | cons a rest ih =>
    by_cases hp : p a = true
    · rw [List.dropWhile_cons_of_pos hp] at h ⊢
      have hrest : rest ≠ [] := by
        intro he
        rw [he] at h
        exact h rfl
      rw [ih h]
      cases rest with
      | nil => exact absurd rfl hrest
      | cons d tl => rw [List.getLast?_cons_cons]
    · have hp' : ¬ p a := fun hh => hp hh
      rw [List.dropWhile_cons_of_neg hp']

theorem trimStr_head_nonWs (l : List Char) :
    ∀ a, (trimStr l).head? = some a → isWs a = false := by
  intro a ha
  unfold trimStr at ha
  rw [List.head?_reverse] at ha
  have hne : (l.dropWhile isWs).reverse.dropWhile isWs ≠ [] := by
    intro he
    rw [he] at ha
    cases ha
  rw [getLast_dropWhile_of_ne_nil isWs _ hne, List.getLast?_reverse] at ha
  exact head_dropWhile_nonSat isWs l a ha

theorem trimStr_getLast_nonWs (l : List Char) :
    ∀ a, (trimStr l).getLast? = some a → isWs a = false := by
  intro a ha
  unfold trimStr at ha
  rw [List.getLast?_reverse] at ha
  exact head_dropWhile_nonSat isWs _ a ha

theorem trimStr_fix (l : List Char)
    (hh : ∀ a, l.head? = some a → isWs a = false)
    (hg : ∀ a, l.getLast? = some a → isWs a = false) : trimStr l = l := by
  unfold trimStr
  rw [dropWhile_eq_self_of_head isWs l hh]
  have : l.reverse.dropWhile isWs = l.reverse := by
    refine dropWhile_eq_self_of_head isWs _ ?_
    intro a ha
    rw [List.head?_reverse] at ha
    exact hg a ha
  rw [this, List.reverse_reverse]

theorem trimStr_sublist (l : List Char) : List.Sublist (trimStr l) l := by
  unfold trimStr
  have h1 : List.Sublist (l.dropWhile isWs) l := List.dropWhile_sublist isWs
  have h2 : List.Sublist ((l.dropWhile isWs).reverse.dropWhile isWs)
      (l.dropWhile isWs).reverse := List.dropWhile_sublist isWs
  have h3 := h2.reverse
  rw [List.reverse_reverse] at h3
  exact h3.trans h1

theorem hOTC_mono (l₁ l₂ : List Char) (hs : List.Sublist l₁ l₂)
    (h : hasOpenThenClose l₁ = true) : hasOpenThenClose l₂ = true := by
  induction hs with
  | slnil => cases h
  | cons a _ ih =>
    simp only [hasOpenThenClose, Bool.or_eq_true]
    exact Or.inr (ih h)
  | cons₂ a hsub ih =>
    simp only [hasOpenThenClose, Bool.or_eq_true, Bool.and_eq_true] at h ⊢
    rcases h with ⟨h1, h2⟩ | h'
    · left
      refine ⟨h1, ?_⟩
      simp only [List.contains_eq_any_beq, List.any_eq_true,
        beq_iff_eq] at h2 ⊢
      obtain ⟨x, hx, he⟩ := h2
      exact ⟨x, hsub.subset hx, he⟩
    · exact Or.inr (ih h')

theorem hOTC_of_sublist (l₁ l₂ : List Char) (hs : List.Sublist l₁ l₂)
    (h : hasOpenThenClose l₂ = false) : hasOpenThenClose l₁ = false := by
  cases hh : hasOpenThenClose l₁ with
  | false => rfl
  | true =>
    rw [hOTC_mono l₁ l₂ hs hh] at h
    cases h

theorem chain'_dropWhile {R : Char → Char → Prop} (p : Char → Bool)
    (l : List Char) (h : l.Chain' R) : (l.dropWhile p).Chain' R :=
  h.suffix (List.dropWhile_suffix p)

theorem wsNormal_trimStr (l : List Char) (h : wsNormal l) :
    wsNormal (trimStr l) := by
  constructor
  · intro a ha hwa
    exact h.1 a ((trimStr_sublist l).subset ha) hwa
  · unfold trimStr
    have c1 : (l.dropWhile isWs).Chain'
        (fun a b => ¬(isWs a = true ∧ isWs b = true)) :=
      chain'_dropWhile isWs l h.2
    have c2 : (l.dropWhile isWs).reverse.Chain'
        (fun a b => ¬(isWs a = true ∧ isWs b = true)) := by
      rw [List.chain'_reverse]
      exact c1.imp (fun a b hab hf => hab ⟨hf.2, hf.1⟩)
    have c3 : ((l.dropWhile isWs).reverse.dropWhile isWs).Chain'
        (fun a b => ¬(isWs a = true ∧ isWs b = true)) :=
      chain'_dropWhile isWs _ c2
    rw [List.chain'_reverse]
    exact c3.imp (fun a b hab hf => hab ⟨hf.2, hf.1⟩)

/-! ## Normal-form facts about cleanDefinition -/

theorem cleanDef_hOTC (l : List Char) :
    hasOpenThenClose (cleanDef l) = false := by
  unfold cleanDef
  refine hOTC_of_sublist _ _ (trimStr_sublist _) ?_
  refine ensurePeriod_hOTC _ ?_
  refine upperFirst_hOTC _ ?_
  exact cwAux_hOTC _ (stripParens_hOTC l) false

theorem cleanDef_wsNormal (l : List Char) : wsNormal (cleanDef l) := by
  unfold cleanDef
  exact wsNormal_trimStr _
    (ensurePeriod_wsNormal _ (upperFirst_wsNormal _ (cwAux_wsNormal _ false)))

theorem cleanDef_getLast (l : List Char) :
    (cleanDef l).getLast? = some '.' := by
  unfold cleanDef
  exact trimStr_getLast _ (ensurePeriod_getLast _)

theorem cleanDef_head_nonWs (l : List Char) :
    ∀ a, (cleanDef l).head? = some a → isWs a = false :=
  trimStr_head_nonWs _

theorem cleanDef_twice (l : List Char) :
    cleanDef (cleanDef l) = upperFirst (cleanDef l) := by
  have h1 : stripParens (cleanDef l) = cleanDef l :=
    stripParens_fix _ (cleanDef_hOTC l)
  have h2 : collapseWs (cleanDef l) = cleanDef l := by
    unfold collapseWs
    exact cwAux_fix _ false (cleanDef_wsNormal l) (by intro h; cases h)
  have h3 : (upperFirst (cleanDef l)).getLast? = some '.' :=
    upperFirst_getLast _ (cleanDef_getLast l)
  have h4 : ensurePeriod (upperFirst (cleanDef l)) = upperFirst (cleanDef l) :=
    ensurePeriod_fix _ h3
  have h5 : trimStr (upperFirst (cleanDef l)) = upperFirst (cleanDef l) := by
    refine trimStr_fix _ ?_ ?_
    · exact upperFirst_head_nonWs _ (cleanDef_head_nonWs l)
    · intro a ha
      rw [h3] at ha
      cases ha
      decide
  calc cleanDef (cleanDef l)
      = trimStr (ensurePeriod (upperFirst (collapseWs
          (stripParens (cleanDef l))))) := rfl
    _ = trimStr (ensurePeriod (upperFirst (cleanDef l))) := by rw [h1, h2]
    _ = upperFirst (cleanDef l) := by rw [h4, h5]

/-! ## Claims C7 and C8 -/

/-- C7 counterexample: cleanDefinition is not idempotent.  For the input
consisting of a space followed by a lowercase letter, one application
yields a lowercase result (the capitalization step uppercased the leading
space, which the final trim then removed) and a second application
uppercases the now-leading letter. -/
theorem C7_counterexample :
    cleanDefinition (cleanDefinition " a") ≠ cleanDefinition " a" := by
  decide

/-- C7 (amended): applying the cleaning transform twice equals applying it
once and then uppercasing the first character of the result; hence the
transform is idempotent exactly on inputs whose cleaned form starts with a
character that uppercasing fixes. -/
theorem C7_theorem (s : String) :
    cleanDefinition (cleanDefinition s) =
      String.mk (upperFirst (cleanDefinition s).data) := by
  unfold cleanDefinition
  exact congrArg String.mk (cleanDef_twice s.data)

/-- C8 counterexample: for the input consisting of a space, two lowercase
letters and two periods, the cleaned output keeps a lowercase first letter
and ends with two periods, refuting the uppercase-first-letter and
exactly-one-trailing-period parts of the claim. -/
theorem C8_counterexample :
    cleanDefinition " hi.." = "hi.." ∧
    (cleanDefinition " hi..").data.head? = some 'h' ∧
    'h'.isUpper = false ∧
    (cleanDefinition " hi..").data.getLast? = some '.' ∧
    (cleanDefinition " hi..").data.dropLast.getLast? = some '.' := by
  refine ⟨by decide, by decide, by decide, by decide, by decide⟩

/-- C8 (amended): for every input the cleaned output contains no
parenthesized aside (no open paren is ever followed by a close paren) and
no run of two or more consecutive whitespace characters, and it ends with
a period; the output's first character need not be an uppercase letter and
the trailing period need not be unique. -/
theorem C8_theorem (s : String) :
    hasOpenThenClose (cleanDefinition s).data = false ∧
    wsNormal (cleanDefinition s).data ∧
    (cleanDefinition s).data.getLast? = some '.' := by
  unfold cleanDefinition
  exact ⟨cleanDef_hOTC s.data, cleanDef_wsNormal s.data,
    cleanDef_getLast s.data⟩

/-! ## Helpers for the selection functions -/

theorem pickAt_mem {α : Type} (l : List α) (r : Nat) (d : α) (h : l ≠ []) :
    pickAt l r d ∈ l := by
  unfold pickAt
  have hlen : 0 < l.length := List.length_pos.mpr h
  have hr : r % l.length < l.length := Nat.mod_lt r hlen
  rw [List.getD_eq_getElem?_getD, List.getElem?_eq_getElem hr]
  simp only [Option.getD_some]
  exact List.getElem_mem hr

theorem contains_iff_mem (l : List String) (a : String) :
    l.contains a = true ↔ a ∈ l := by
  simp

theorem contains_eq_false (l : List String) (a : String) :
    l.contains a = false ↔ a ∉ l := by
  rw [Bool.eq_false_iff]
  exact not_congr (contains_iff_mem l a)

theorem tierReset_mem (pool : List DBEntry) :
    ∀ (used : List String) (x : String),
    x ∈ tierReset pool used ↔
      x ∈ used ∧ x ∉ pool.map (fun w => w.word) := by
  induction pool with
  | nil =>
    intro used x
    simp [tierReset]
  | cons e tl ih =>
    intro used x
    have hstep : tierReset (e :: tl) used =
        tierReset tl (used.filter (fun y => y != e.word)) := rfl
    rw [hstep, ih]
    simp only [List.mem_filter, bne_iff_ne, ne_eq, List.map_cons,
      List.mem_cons, not_or, decide_eq_true_eq]
    tauto

theorem selectCandidate_state (used : List String) (r : Nat) :
    (selectCandidate used r).2 = used ∨ (selectCandidate used r).2 = [] := by
  unfold selectCandidate
  cases hc : getCuratedWord used r with
  | some w => left; rfl
  | none =>
    cases hd : getDynamicWord used r with
    | some w => left; rfl
    | none =>
      simp only [getRandomDictionaryWord]
      by_cases he :
          (RANDOM_DICTIONARY_WORDS.filter
            (fun w => !used.contains w)).isEmpty = true
      · right
        rw [if_pos he]
      · left
        rw [if_neg he]

theorem mkWord_word (e : DBEntry) : (mkWord e).word = e.word := rfl

theorem getFallbackWord_mem (r : Nat) :
    (getFallbackWord r).word ∈ FALLBACK_WORDS.map Prod.fst := by
  unfold getFallbackWord
  exact List.mem_map_of_mem Prod.fst
    (pickAt_mem FALLBACK_WORDS r ("", "") (by decide))

/-! ## Claims C1, C2, C4 (EnhancedWordService selection) -/

/-- C1 counterexample: getWordByDifficulty does not clear the whole
seen-word set when the requested tier is exhausted.  With a used set
holding the easy-tier word ALPHA and the expert-tier word BRAVO, the
easy-tier call resets only the easy pool: it returns ALPHA and the final
set still tracks BRAVO, which the claim says would have been removed. -/
theorem C1_counterexample :
    getWordByDifficulty demoDbC1 .easy 0 2 ["ALPHA", "BRAVO"] =
      some (⟨0, "ALPHA", "First letter.", "easy", "general"⟩,
        ["BRAVO", "ALPHA"]) ∧
    "BRAVO" ∈ (["BRAVO", "ALPHA"] : List String) := by
  exact ⟨by decide, by decide⟩

/-- C1 (amended): when the filtered pool of the requested tier is empty,
getWordByDifficulty retries after deleting from the seen-word set exactly
the words of that tier's pool; seen words outside the requested pool stay
tracked (for the mixed tier the pool is the whole corpus, so only then is
the reset effectively global). -/
theorem C1_theorem (db : List DBEntry) (d : Difficulty) (r fuel : Nat)
    (used : List String)
    (h : (wordPool db d).filter (fun w => !used.contains w.word) = []) :
    getWordByDifficulty db d r (fuel + 1) used =
      getWordByDifficulty db d r fuel (tierReset (wordPool db d) used) ∧
    ∀ x, x ∈ tierReset (wordPool db d) used ↔
      x ∈ used ∧ x ∉ (wordPool db d).map (fun w => w.word) := by
  constructor
  · simp only [getWordByDifficulty, h, List.isEmpty_nil, if_true]
  · intro x
    exact tierReset_mem (wordPool db d) used x

/-- C1 witness: instance of the amended theorem at the two-entry database
with both words already seen. -/
theorem C1_witness :
    getWordByDifficulty demoDbC1 .easy 0 2 ["ALPHA", "BRAVO"] =
      getWordByDifficulty demoDbC1 .easy 0 1
        (tierReset (wordPool demoDbC1 .easy) ["ALPHA", "BRAVO"]) ∧
    ("BRAVO" ∈ tierReset (wordPool demoDbC1 .easy) ["ALPHA", "BRAVO"] ↔
      "BRAVO" ∈ (["ALPHA", "BRAVO"] : List String) ∧
      "BRAVO" ∉ (wordPool demoDbC1 .easy).map (fun w => w.word)) :=
  ⟨(C1_theorem demoDbC1 .easy 0 1 ["ALPHA", "BRAVO"] (by decide)).1,
   (C1_theorem demoDbC1 .easy 0 1 ["ALPHA", "BRAVO"] (by decide)).2 "BRAVO"⟩

/-- C2: with an empty pool the selection functions never return.  For a
difficulty whose pool is empty, getWordByDifficulty recurses forever (no
recursion fuel suffices, and none is only produced by fuel exhaustion);
with an empty corpus the same holds for getRandomWordWithDefinition.  The
source therefore never reaches the null that the claim and its own
declared return type promise. -/
theorem C2_theorem (db : List DBEntry) (d : Difficulty) (r : Nat)
    (h : wordPool db d = []) :
    ∀ (fuel : Nat) (used : List String),
    getWordByDifficulty db d r fuel used = none ∧
    (db = [] → getRandomWordWithDefinitionE db r fuel used = none) := by
  intro fuel
  induction fuel with
  | zero => intro used; exact ⟨rfl, fun _ => rfl⟩
  | succ n ih =>
    intro used
    constructor
    · show getWordByDifficulty db d r (n + 1) used = none
      simp only [getWordByDifficulty, h, List.filter_nil, List.isEmpty_nil,
        if_true]
      exact (ih (tierReset [] used)).1
    · intro hdb
      show getRandomWordWithDefinitionE db r (n + 1) used = none
      subst hdb
      simp only [getRandomWordWithDefinitionE, List.filter_nil,
        List.isEmpty_nil, if_true]
      exact (ih []).2 rfl

/-- C2 witness: at the empty database, five units of fuel produce no
result from either function. -/
theorem C2_witness :
    getWordByDifficulty [] .easy 0 5 [] = none ∧
    getRandomWordWithDefinitionE [] 0 5 [] = none := by
  have h := C2_theorem [] .easy 0 rfl 5 []
  exact ⟨h.1, h.2 rfl⟩

/-- C4: a selection call with a non-empty tier pool always returns a word
of that pool; when the filtered pool is non-empty the returned word is
outside the exclusion set, and when every pool word is excluded the
exclusion is reset and a pool word is still returned, never the no-word
result. -/
theorem C4_theorem (db : List DBEntry) (d : Difficulty) (used : List String)
    (r : Nat) (h : wordPool db d ≠ []) :
    ∃ w s', getWordByDifficulty db d r 2 used = some (w, s') ∧
      w.word ∈ (wordPool db d).map (fun e => e.word) ∧
      ((wordPool db d).filter (fun e => !used.contains e.word) ≠ [] →
        used.contains w.word = false) := by
  by_cases ha : (wordPool db d).filter (fun e => !used.contains e.word) = []
  · have h1 : getWordByDifficulty db d r 2 used =
        getWordByDifficulty db d r 1 (tierReset (wordPool db d) used) := by
      simp only [getWordByDifficulty, ha, List.isEmpty_nil, if_true]
    have hfull : (wordPool db d).filter
        (fun e => !(tierReset (wordPool db d) used).contains e.word) =
        wordPool db d := by
      rw [List.filter_eq_self]
      intro e he
      have hnot : e.word ∉ tierReset (wordPool db d) used := by
        intro hm
        exact ((tierReset_mem _ _ _).mp hm).2
          (List.mem_map_of_mem (fun w => w.word) he)
      rw [(contains_eq_false _ _).mpr hnot]
      rfl
    have hne : ((wordPool db d).filter
        (fun e => !(tierReset (wordPool db d) used).contains e.word)).isEmpty
        = false := by
      rw [hfull]
      exact List.isEmpty_eq_false.mpr h
    have h2 : getWordByDifficulty db d r 1
        (tierReset (wordPool db d) used) =
        some (mkWord (pickAt ((wordPool db d).filter
            (fun e => !(tierReset (wordPool db d) used).contains e.word))
            r dfltEntry),
          setAdd (tierReset (wordPool db d) used)
            (pickAt ((wordPool db d).filter
              (fun e => !(tierReset (wordPool db d) used).contains e.word))
              r dfltEntry).word) := by
      simp only [getWordByDifficulty, hne, Bool.false_eq_true, if_false]
    refine ⟨_, _, h1.trans h2, ?_, ?_⟩
    · have hm : pickAt ((wordPool db d).filter
          (fun e => !(tierReset (wordPool db d) used).contains e.word))
          r dfltEntry ∈ wordPool db d := by
        rw [hfull]
        exact pickAt_mem _ r _ h
      exact List.mem_map_of_mem (fun e => e.word) hm
    · intro hc
      exact absurd ha hc
  · have hne : ((wordPool db d).filter
        (fun e => !used.contains e.word)).isEmpty = false :=
      List.isEmpty_eq_false.mpr ha
    have h1 : getWordByDifficulty db d r 2 used =
        some (mkWord (pickAt ((wordPool db d).filter
            (fun e => !used.contains e.word)) r dfltEntry),
          setAdd used (pickAt ((wordPool db d).filter
            (fun e => !used.contains e.word)) r dfltEntry).word) := by
      simp only [getWordByDifficulty, hne, Bool.false_eq_true, if_false]
    have hmem : pickAt ((wordPool db d).filter
        (fun e => !used.contains e.word)) r dfltEntry ∈
        (wordPool db d).filter (fun e => !used.contains e.word) :=
      pickAt_mem _ r _ ha
    have hsplit := List.mem_filter.mp hmem
    refine ⟨_, _, h1, ?_, ?_⟩
    · exact List.mem_map_of_mem (fun e => e.word) hsplit.1
    · intro _
      rw [mkWord_word]
      have hp := hsplit.2
      cases hq : used.contains (pickAt ((wordPool db d).filter
          (fun e => !used.contains e.word)) r dfltEntry).word with
      | false => rfl
      | true =>
        rw [hq] at hp
        cases hp

/-- C4 witness: at the one-entry database with its word already excluded,
the mixed-tier call resets the exclusion and still returns the word. -/
theorem C4_witness :
    getWordByDifficulty demoDb .mixed 0 2 ["HOUSE"] =
      some (⟨0, "HOUSE", "A building for human habitation.", "easy",
        "general"⟩, ["HOUSE"]) := by
  have h := C4_theorem demoDb .mixed ["HOUSE"] 0 (by decide)
  decide

/-! ## Claims C5 and C10 (smart selection) -/

/-- C5: when no candidate lies outside the union of the personal list and
the process-local set, getSmartWordSelection clears only the process-local
set and retries against the pool filtered solely by that (now empty) set:
it returns a pool word whenever the pool is non-empty (the word may be one
the personal list already contains, which is never consulted again) and
returns none exactly when the pool itself is empty.  The caller-supplied
personal list is a pure input and is never modified. -/
theorem C5_theorem (db : List DBEntry) (seen : List String) (diff : String)
    (used : List String) (r : Nat)
    (h : (smartPool db diff).filter (fun w =>
      !seen.contains (upStr w.word) && !used.contains w.word) = []) :
    (smartPool db diff = [] →
      getSmartWordSelection db seen diff used r = (none, [])) ∧
    (smartPool db diff ≠ [] →
      (getSmartWordSelection db seen diff used r).1 =
        some (mkWord (pickAt (smartPool db diff) r dfltEntry)) ∧
      (mkWord (pickAt (smartPool db diff) r dfltEntry)).word ∈
        (smartPool db diff).map (fun e => e.word) ∧
      (getSmartWordSelection db seen diff used r).2 =
        [(pickAt (smartPool db diff) r dfltEntry).word]) := by
  have hav : (smartPool db diff).filter
      (fun w => !(([] : List String)).contains w.word) = smartPool db diff :=
    List.filter_eq_self.mpr (fun a _ => rfl)
  constructor
  · intro hp
    simp only [getSmartWordSelection, h, List.isEmpty_nil, if_true, hav, hp,
      List.filter_nil]
  · intro hp
    have hfalse : (smartPool db diff).isEmpty = false :=
      List.isEmpty_eq_false.mpr hp
    have hcall : getSmartWordSelection db seen diff used r =
        (some (mkWord (pickAt (smartPool db diff) r dfltEntry)),
         setAdd [] (pickAt (smartPool db diff) r dfltEntry).word) := by
      simp only [getSmartWordSelection, h, List.isEmpty_nil, if_true, hav,
        hfalse, Bool.false_eq_true, if_false]
    refine ⟨by rw [hcall], ?_, by rw [hcall]; rfl⟩
    rw [mkWord_word]
    exact List.mem_map_of_mem (fun e => e.word) (pickAt_mem _ r _ hp)

/-- C5 witness: one-entry database whose only word is in the personal
list; the call still returns that word (a repeat for the user) and the
process-local set afterwards holds exactly that word. -/
theorem C5_witness :
    (getSmartWordSelection demoDb ["HOUSE"] "mixed" [] 0).1 =
      some ⟨0, "HOUSE", "A building for human habitation.", "easy",
        "general"⟩ ∧
    (getSmartWordSelection demoDb ["HOUSE"] "mixed" [] 0).2 = ["HOUSE"] ∧
    "HOUSE" ∈ (["HOUSE"] : List String) := by
  have h := (C5_theorem demoDb ["HOUSE"] "mixed" [] 0 (by decide)).2
    (by decide)
  exact ⟨h.1, h.2.2, by decide⟩

/-- C10: the personal seen-word list is matched case-sensitively against
the uppercased corpus word, so entries that are not fixed by uppercasing
never exclude anything: dropping them from the list leaves the selection
unchanged; concretely, with the corpus word HOUSE recorded in the
personal list as house, the word HOUSE is still selected and returned. -/
theorem C10_theorem :
    (∀ (db : List DBEntry) (diff : String) (used : List String) (r : Nat)
      (seen : List String), (∀ e ∈ seen, upStr e ≠ e) →
      getSmartWordSelection db seen diff used r =
        getSmartWordSelection db [] diff used r) ∧
    (getSmartWordSelection demoDb ["house"] "mixed" [] 0).1 =
      some ⟨0, "HOUSE", "A building for human habitation.", "easy",
        "general"⟩ := by
  constructor
  · intro db diff used r seen hseen
    have hc : ∀ w : DBEntry, seen.contains (upStr w.word) = false := by
      intro w
      rw [contains_eq_false]
      intro hm
      exact hseen _ hm (upStr_idem w.word)
    have hf : (smartPool db diff).filter (fun w =>
        !seen.contains (upStr w.word) && !used.contains w.word) =
        (smartPool db diff).filter (fun w =>
        !(([] : List String)).contains (upStr w.word) &&
          !used.contains w.word) := by
      refine List.filter_congr ?_
      intro a _
      rw [hc a]
      rfl
    simp only [getSmartWordSelection]
    rw [hf]
  · decide

/-- C10 witness: instance of the inertness statement at the one-entry
database with the lowercase personal entry house. -/
theorem C10_witness :
    getSmartWordSelection demoDb ["house"] "mixed" [] 0 =
      getSmartWordSelection demoDb [] "mixed" [] 0 :=
  C10_theorem.1 demoDb "mixed" [] 0 ["house"] (by decide)

/-! ## Claims C3, C6, C9 (WordService heuristic path) -/

theorem filter_contains_nil (l : List String) :
    l.filter (fun w => !(([] : List String)).contains w) = l :=
  List.filter_eq_self.mpr (fun _ _ => rfl)

theorem pickAt_zero {α : Type} (l : List α) (d : α) :
    pickAt l 0 d = l.getD 0 d := by
  unfold pickAt
  rw [Nat.zero_mod]

theorem getCuratedWord_nil :
    getCuratedWord [] 0 = some "HOUSE" := by
  have h : getCuratedWord [] 0 = some (pickAt CURATED_WORDS 0 "") := by
    simp only [getCuratedWord, filter_contains_nil]
    rfl
  rw [h, pickAt_zero]
  rfl

theorem getDynamicWord_nil :
    getDynamicWord [] 0 = some "ELEPHANT" := by
  have h : getDynamicWord [] 0 = some (pickAt allDynamicWords 0 "") := by
    simp only [getDynamicWord, filter_contains_nil]
    rfl
  rw [h, pickAt_zero]
  rfl

theorem selectCandidate_nil :
    selectCandidate [] 0 = (some "HOUSE", []) := by
  simp only [selectCandidate, getCuratedWord_nil]

theorem selectCandidate_of_none (used : List String) (r : Nat)
    (res : Option String × List String)
    (h1 : getCuratedWord used r = none)
    (h2 : getDynamicWord used r = none)
    (h3 : getRandomDictionaryWord used r = res) :
    selectCandidate used r = res := by
  simp only [selectCandidate, h1, h2, h3]

theorem getRWWS_of_fail (api : String → Option String) (used : List String)
    (r : Nat) (w : String) (u₀ : List String)
    (hsel : selectCandidate used r = (some w, u₀)) (hapi : api w = none) :
    getRandomWordWithDefinitionWS api used r = (getFallbackWord r, u₀) := by
  simp only [getRandomWordWithDefinitionWS, hsel, hapi]

/-- C3 counterexample: with nothing marked used, the chosen candidate is
the curated word HOUSE; its definition fetch fails while the lookup would
succeed for every other word and the dynamic pools are untried and
non-empty (ELEPHANT is available), yet the call returns the fixed
hardcoded fallback word MAGNIFICENT instead of trying another candidate
from the next tier. -/
theorem C3_counterexample :
    (getRandomWordWithDefinitionWS apiFailHouse [] 0).1.word =
      "MAGNIFICENT" ∧
    "MAGNIFICENT" ∈ FALLBACK_WORDS.map Prod.fst ∧
    apiFailHouse "ELEPHANT" =
      some "A reasonable well formed definition." ∧
    getDynamicWord [] 0 = some "ELEPHANT" := by
  refine ⟨?_, by decide, by decide, getDynamicWord_nil⟩
  have hres : getRandomWordWithDefinitionWS apiFailHouse [] 0 =
      (getFallbackWord 0, []) := by
    simp only [getRandomWordWithDefinitionWS, selectCandidate_nil]
    rfl
  rw [hres]
  have hfb : getFallbackWord 0 =
      ⟨0, "MAGNIFICENT",
       "Extremely beautiful, elaborate, or impressive; inspiring great admiration or awe.",
       categorizeWordDifficulty "MAGNIFICENT", "general"⟩ := by
    unfold getFallbackWord
    rw [pickAt_zero]
    rfl
  rw [hfb]

/-- C3 (amended): when the definition fetch for the chosen candidate
fails, the service does not retry that candidate and does not try any
other candidate either: it returns one of the fixed hardcoded fallback
words directly.  The chain curated list, then dynamic pools, then
hardcoded dictionary words is used only to choose the single candidate and
is not re-entered after a definition failure. -/
theorem C3_theorem (api : String → Option String) (used : List String)
    (r : Nat) (w : String) (u₀ : List String)
    (hsel : selectCandidate used r = (some w, u₀)) (hapi : api w = none) :
    getRandomWordWithDefinitionWS api used r = (getFallbackWord r, u₀) ∧
    (getFallbackWord r).word ∈ FALLBACK_WORDS.map Prod.fst := by
  constructor
  · simp only [getRandomWordWithDefinitionWS, hsel, hapi]
  · exact getFallbackWord_mem r

/-- C3 witness: instance of the amended theorem with the all-failing
lookup at the empty used set, where the candidate is HOUSE. -/
theorem C3_witness :
    getRandomWordWithDefinitionWS apiNone [] 0 = (getFallbackWord 0, []) ∧
    (getFallbackWord 0).word ∈ FALLBACK_WORDS.map Prod.fst :=
  C3_theorem apiNone [] 0 "HOUSE" [] selectCandidate_nil rfl

/-- Helper: the meanings loop returns none when every meaning's first
definition cleans to a length outside the band. -/
theorem findUsable_none (ms : List APIMeaning)
    (h : ∀ m ∈ ms, ∀ d₀, m.definitions.head? = some d₀ →
      ¬(20 < (cleanDefinition d₀.definition).length ∧
        (cleanDefinition d₀.definition).length < 200)) :
    findUsableDefinition ms = none := by
  induction ms with
  | nil => rfl
  | cons m rest ih =>
    simp only [findUsableDefinition]
    by_cases he : m.definitions.isEmpty = true
    · rw [if_pos he]
      exact ih (fun m' hm' => h m' (List.mem_cons_of_mem _ hm'))
    · rw [if_neg he]
      cases hd : m.definitions with
      | nil => exact absurd (by rw [hd]; rfl) he
      | cons d0 tl =>
        have hband := h m (List.mem_cons_self _ _) d0 (by rw [hd]; rfl)
        simp only [List.headD_cons]
        rw [if_neg ?_]
        · exact ih (fun m' hm' => h m' (List.mem_cons_of_mem _ hm'))
        · simp only [Bool.and_eq_true, decide_eq_true_eq]
          exact hband

/-- C6: every failure shape of the definition lookup (caught network
error, non-success HTTP status, empty response array, absent or empty
meanings, or every first definition cleaning to a length outside the
strict 20 to 200 band) yields the no-definition result none rather than an
error, and under a failing lookup getRandomWordWithDefinition still
returns a Word, namely one of the fixed hardcoded fallback words (the
model is a total function: no path yields no word). -/
theorem C6_theorem :
    fetchDefinitionFromAPI .networkError = none ∧
    fetchDefinitionFromAPI .httpError = none ∧
    fetchDefinitionFromAPI (.ok []) = none ∧
    (∀ (entry : DictEntry) (rest : List DictEntry), entry.meanings = [] →
      fetchDefinitionFromAPI (.ok (entry :: rest)) = none) ∧
    (∀ (entry : DictEntry) (rest : List DictEntry),
      (∀ m ∈ entry.meanings, ∀ d₀, m.definitions.head? = some d₀ →
        ¬(20 < (cleanDefinition d₀.definition).length ∧
          (cleanDefinition d₀.definition).length < 200)) →
      fetchDefinitionFromAPI (.ok (entry :: rest)) = none) ∧
    (∀ (api : String → Option String) (used : List String) (r : Nat),
      (∀ w, api w = none) →
      (getRandomWordWithDefinitionWS api used r).1.word ∈
        FALLBACK_WORDS.map Prod.fst) := by
  refine ⟨rfl, rfl, rfl, ?_, ?_, ?_⟩
  · intro entry rest hm
    simp only [fetchDefinitionFromAPI, hm, List.isEmpty_nil, if_true]
  · intro entry rest h
    simp only [fetchDefinitionFromAPI]
    by_cases he : entry.meanings.isEmpty = true
    · rw [if_pos he]
    · rw [if_neg he]
      exact findUsable_none entry.meanings h
  · intro api used r hall
    rcases hs : selectCandidate used r with ⟨o, u⟩
    cases o with
    | some w =>
      simp only [getRandomWordWithDefinitionWS, hs, hall w]
      exact getFallbackWord_mem r
    | none =>
      simp only [getRandomWordWithDefinitionWS, hs]
      exact getFallbackWord_mem r

/-- C6 witness: a response whose single entry has no meanings maps to
none, and with an always-failing lookup the returned word is a hardcoded
fallback word. -/
theorem C6_witness :
    fetchDefinitionFromAPI (.ok [⟨"XYZZY", []⟩]) = none ∧
    (getRandomWordWithDefinitionWS apiNone [] 0).1.word ∈
      FALLBACK_WORDS.map Prod.fst :=
  ⟨C6_theorem.2.2.2.1 ⟨"XYZZY", []⟩ [] rfl,
   C6_theorem.2.2.2.2.2 apiNone [] 0 (fun _ => rfl)⟩

/-- C9 counterexample: with every word of the three candidate lists
already in the used-words set and a failing definition lookup, the call
clears the set (the dictionary-list exhaustion step), so the set does not
stay unchanged as the claim states. -/
theorem C9_counterexample :
    (getRandomWordWithDefinitionWS apiNone exhaustedUsed 0).2 = [] ∧
    exhaustedUsed ≠ [] := by
  have hcur : getCuratedWord exhaustedUsed 0 = none := by
    have hf : CURATED_WORDS.filter
        (fun w => !exhaustedUsed.contains w) = [] := by
      rw [List.filter_eq_nil_iff]
      intro a ha
      have hm : a ∈ exhaustedUsed :=
        List.mem_append_left _ (List.mem_append_left _ ha)
      rw [(contains_iff_mem _ _).mpr hm]
      decide
    simp only [getCuratedWord, hf, List.isEmpty_nil, if_true]
  have hdyn : getDynamicWord exhaustedUsed 0 = none := by
    have hf : allDynamicWords.filter
        (fun w => !exhaustedUsed.contains w) = [] := by
      rw [List.filter_eq_nil_iff]
      intro a ha
      have hm : a ∈ exhaustedUsed :=
        List.mem_append_left _ (List.mem_append_right _ ha)
      rw [(contains_iff_mem _ _).mpr hm]
      decide
    simp only [getDynamicWord, hf, List.isEmpty_nil, if_true]
  have hdict : getRandomDictionaryWord exhaustedUsed 0 =
      (some (pickAt RANDOM_DICTIONARY_WORDS 0 ""), []) := by
    have hf : RANDOM_DICTIONARY_WORDS.filter
        (fun w => !exhaustedUsed.contains w) = [] := by
      rw [List.filter_eq_nil_iff]
      intro a ha
      have hm : a ∈ exhaustedUsed := List.mem_append_right _ ha
      rw [(contains_iff_mem _ _).mpr hm]
      decide
    simp only [getRandomDictionaryWord, hf, List.isEmpty_nil, if_true]
  have hsel : selectCandidate exhaustedUsed 0 =
      (some (pickAt RANDOM_DICTIONARY_WORDS 0 ""), []) :=
    selectCandidate_of_none exhaustedUsed 0 _ hcur hdyn hdict
  have hres : getRandomWordWithDefinitionWS apiNone exhaustedUsed 0 =
      (getFallbackWord 0, []) :=
    getRWWS_of_fail apiNone exhaustedUsed 0 _ [] hsel rfl
  constructor
  · rw [hres]
  · intro hcontra
    have : "HOUSE" ∈ exhaustedUsed :=
      List.mem_append_left _
        (List.mem_append_left _ (List.mem_cons_self _ _))
    rw [hcontra] at this
    cases this

/-- C9 (amended): a call whose definition fetch for the chosen candidate
fails adds no word to the used-words set (the failed candidate is not
marked seen and the returned fallback word is never added), but the set is
not always left unchanged: the dictionary-exhaustion step may have cleared
it before the fetch, so the final set is merely a subset of the initial
one. -/
theorem C9_theorem (api : String → Option String) (used : List String)
    (r : Nat) (w : String) (u₀ : List String)
    (hsel : selectCandidate used r = (some w, u₀)) (hapi : api w = none) :
    (getRandomWordWithDefinitionWS api used r).2 ⊆ used ∧
    (getRandomWordWithDefinitionWS api used r).1.word ∈
      FALLBACK_WORDS.map Prod.fst := by
  have hres : getRandomWordWithDefinitionWS api used r =
      (getFallbackWord r, u₀) := by
    simp only [getRandomWordWithDefinitionWS, hsel, hapi]
  constructor
  · rw [hres]
    have hst := selectCandidate_state used r
    rw [hsel] at hst
    rcases hst with h | h
    · have h' : u₀ = used := h
      rw [h']
      exact List.Subset.refl used
    · have h' : u₀ = [] := h
      rw [h']
      exact List.nil_subset used
  · rw [hres]
    exact getFallbackWord_mem r

/-- C9 witness: instance of the amended theorem at the empty used set with
the all-failing lookup. -/
theorem C9_witness :
    (getRandomWordWithDefinitionWS apiNone [] 0).2 = [] ∧
    (getRandomWordWithDefinitionWS apiNone [] 0).1.word ∈
      FALLBACK_WORDS.map Prod.fst := by
  refine ⟨?_, (C9_theorem apiNone [] 0 "HOUSE" [] selectCandidate_nil rfl).2⟩
  have hres : getRandomWordWithDefinitionWS apiNone [] 0 =
      (getFallbackWord 0, []) := by
    simp only [getRandomWordWithDefinitionWS, selectCandidate_nil]
    rfl
  rw [hres]
